import Mathlib

/-!
Verification of the WebView registry of `components/constellation/webview.rs`.

The Rust `WebViewManager<WebView>` owns a `HashMap` from webview id to
payload, a focus-order `Vec`, an `is_focused` flag, and two `HashSet`s
(`shown_webviews`, `invisible_webviews`).  We embed identifiers as `Nat`
(they are opaque and only compared for equality), the hash map as an
association list, and the two hash sets as `Finset Nat` (the sets are
unordered and duplicate-free).  Every operation below is a direct
transcription of the corresponding Rust method.
-/

/-- State of `WebViewManager<WebView>`: the registry map, the focus order
(latest focused last), the focused flag, and the shown/invisible marker
sets. -/
@[ext]
structure WebViewManager (WebView : Type) where
  webviews : List (Nat × WebView)
  focus_order : List Nat
  is_focused : Bool
  shown_webviews : Finset Nat
  invisible_webviews : Finset Nat
  deriving DecidableEq

namespace WebViewManager

variable {WebView : Type}

/-- `WebViewManager::default()`: everything empty, unfocused. -/
def initial : WebViewManager WebView :=
  { webviews := []
    focus_order := []
    is_focused := false
    shown_webviews := ∅
    invisible_webviews := ∅ }

/-- Keys of the registry map (the registered identifiers). -/
def keys (m : WebViewManager WebView) : List Nat :=
  m.webviews.map Prod.fst

/-- `get(id)`: look the payload up in the registry. -/
def get (m : WebViewManager WebView) (i : Nat) : Option WebView :=
  List.lookup i m.webviews

/-- `add(id, webview)`: `HashMap::insert`, overwriting any previous entry
for the same key; no other field is touched. -/
def add (m : WebViewManager WebView) (i : Nat) (w : WebView) : WebViewManager WebView :=
  { m with webviews := (i, w) :: m.webviews.filter (fun p => p.1 != i) }

/-- `remove(id)`: clear the focused flag when `id` is the tail of the focus
order, drop `id` from the focus order, from both marker sets and from the
registry, and return the removed payload (absence when unregistered). -/
def remove (m : WebViewManager WebView) (i : Nat) : WebViewManager WebView × Option WebView :=
  ({ webviews := m.webviews.filter (fun p => p.1 != i)
     focus_order := m.focus_order.filter (fun b => b != i)
     is_focused := if m.focus_order.getLast? = some i then false else m.is_focused
     shown_webviews := m.shown_webviews.erase i
     invisible_webviews := m.invisible_webviews.erase i },
   List.lookup i m.webviews)

/-- `focus(id)`: drop every occurrence of `id` from the focus order, push
`id` at the tail, set the focused flag. -/
def focus (m : WebViewManager WebView) (i : Nat) : WebViewManager WebView :=
  { m with
    focus_order := m.focus_order.filter (fun b => b != i) ++ [i]
    is_focused := true }

/-- `unfocus()`: clear the focused flag only. -/
def unfocus (m : WebViewManager WebView) : WebViewManager WebView :=
  { m with is_focused := false }

/-- `focused_webview()`: absent when the flag is clear; otherwise the tail
of the focus order paired with its registered payload. -/
def focused_webview (m : WebViewManager WebView) : Option (Nat × WebView) :=
  if m.is_focused = false then none
  else
    match m.focus_order.getLast? with
    | some i => (m.get i).map (fun w => (i, w))
    | none => none

/-- `is_effectively_visible(id)`: marked shown and not marked invisible. -/
def is_effectively_visible (m : WebViewManager WebView) (i : Nat) : Bool :=
  decide (i ∈ m.shown_webviews) && !decide (i ∈ m.invisible_webviews)

/-- `mark_webview_shown(id)`: insert into the shown set; report whether the
effective visibility changed. -/
def mark_webview_shown (m : WebViewManager WebView) (i : Nat) :
    WebViewManager WebView × Bool :=
  let old := m.is_effectively_visible i
  let m2 := { m with shown_webviews := insert i m.shown_webviews }
  (m2, m2.is_effectively_visible i != old)

/-- `mark_webview_not_shown(id)`: erase from the shown set; report whether
the effective visibility changed. -/
def mark_webview_not_shown (m : WebViewManager WebView) (i : Nat) :
    WebViewManager WebView × Bool :=
  let old := m.is_effectively_visible i
  let m2 := { m with shown_webviews := m.shown_webviews.erase i }
  (m2, m2.is_effectively_visible i != old)

/-- `mark_all_webviews_not_shown()`: take the whole shown set (leaving it
empty) and return the taken ids that are not in the invisible set. -/
def mark_all_webviews_not_shown (m : WebViewManager WebView) :
    WebViewManager WebView × Finset Nat :=
  ({ m with shown_webviews := ∅ },
   m.shown_webviews.filter (fun i => i ∉ m.invisible_webviews))

/-- `mark_webview_invisible(id)`: insert into the invisible set; report
whether the effective visibility changed. -/
def mark_webview_invisible (m : WebViewManager WebView) (i : Nat) :
    WebViewManager WebView × Bool :=
  let old := m.is_effectively_visible i
  let m2 := { m with invisible_webviews := insert i m.invisible_webviews }
  (m2, m2.is_effectively_visible i != old)

/-- `mark_webview_not_invisible(id)`: erase from the invisible set; report
whether the effective visibility changed. -/
def mark_webview_not_invisible (m : WebViewManager WebView) (i : Nat) :
    WebViewManager WebView × Bool :=
  let old := m.is_effectively_visible i
  let m2 := { m with invisible_webviews := m.invisible_webviews.erase i }
  (m2, m2.is_effectively_visible i != old)

end WebViewManager

/-- The public operations of the manager, for stating reachability. -/
inductive Op (WebView : Type) where
  | add (i : Nat) (w : WebView)
  | remove (i : Nat)
  | focus (i : Nat)
  | unfocus
  | markShown (i : Nat)
  | markNotShown (i : Nat)
  | markInvisible (i : Nat)
  | markNotInvisible (i : Nat)
  | markAllNotShown

namespace WebViewManager

/-- Apply one operation to the state, dropping the returned value. -/
def applyOp (m : WebViewManager WebView) : Op WebView → WebViewManager WebView
  | .add i w => m.add i w
  | .remove i => (m.remove i).1
  | .focus i => m.focus i
  | .unfocus => m.unfocus
  | .markShown i => (m.mark_webview_shown i).1
  | .markNotShown i => (m.mark_webview_not_shown i).1
  | .markInvisible i => (m.mark_webview_invisible i).1
  | .markNotInvisible i => (m.mark_webview_not_invisible i).1
  | .markAllNotShown => (m.mark_all_webviews_not_shown).1

/-- The documented precondition of an operation: `focus` and the four
single-id `mark_*` operations require the id to be registered; the other
operations are unconditional. -/
def preOk (m : WebViewManager WebView) : Op WebView → Bool
  | .focus i => m.keys.contains i
  | .markShown i => m.keys.contains i
  | .markNotShown i => m.keys.contains i
  | .markInvisible i => m.keys.contains i
  | .markNotInvisible i => m.keys.contains i
  | _ => true

/-- Run a sequence of operations from a state. -/
def runOps (m : WebViewManager WebView) : List (Op WebView) → WebViewManager WebView
  | [] => m
  | op :: ops => runOps (m.applyOp op) ops

/-- A sequence of operations honors every operation's precondition when run
from `m`. -/
def validFrom (m : WebViewManager WebView) : List (Op WebView) → Bool
  | [] => true
  | op :: ops => m.preOk op && validFrom (m.applyOp op) ops

/-- The registry invariants: duplicate-free focus order, every id in the
focus order and in both marker sets registered, and the focused flag
implying a non-empty focus order. -/
def Invariant (m : WebViewManager WebView) : Prop :=
  m.focus_order.Nodup ∧
  (∀ i ∈ m.focus_order, i ∈ m.keys) ∧
  (∀ i ∈ m.shown_webviews, i ∈ m.keys) ∧
  (∀ i ∈ m.invisible_webviews, i ∈ m.keys) ∧
  (m.is_focused = true → m.focus_order ≠ [])

instance (m : WebViewManager WebView) : Decidable m.Invariant := by
  unfold Invariant
  infer_instance

end WebViewManager

/-- A small concrete manager state, used to exercise the theorems with
hypotheses on explicit inputs. -/
def mgrW : WebViewManager Nat :=
  { webviews := [(1, 7)]
    focus_order := [1]
    is_focused := true
    shown_webviews := {1}
    invisible_webviews := ∅ }

/-- A small concrete valid operation sequence, used to exercise the
reachability theorem on an explicit input. -/
def opsW : List (Op Nat) := [Op.add 1 7, Op.focus 1, Op.markShown 1]

/-! ### Association-list helper lemmas -/

theorem lookup_filter_key_self {α : Type} (l : List (Nat × α)) (i : Nat) :
    List.lookup i (l.filter (fun p => p.1 != i)) = none := by
  induction l with
  | nil => rfl
  | cons a l ih =>
    rcases a with ⟨k, v⟩
    by_cases h : k = i
    · subst h; simpa using ih
    · have hk : ((k, v).1 != i) = true := by simpa using h
      have hik : (i == k) = false := by simpa using Ne.symm h
      simp [List.filter_cons, hk, List.lookup, hik, ih]

theorem lookup_filter_key_other {α : Type} (l : List (Nat × α)) (i j : Nat) (h : j ≠ i) :
    List.lookup j (l.filter (fun p => p.1 != i)) = List.lookup j l := by
  induction l with
  | nil => rfl
  | cons a l ih =>
    rcases a with ⟨k, v⟩
    by_cases hk : k = i
    · subst hk
      have hjk : (j == k) = false := by simpa using h
      simp [List.filter_cons, List.lookup, hjk, ih]
    · have hk2 : ((k, v).1 != i) = true := by simpa using hk
      by_cases hjk : j = k
      · subst hjk; simp [List.filter_cons, hk2, List.lookup]
      · have hjk2 : (j == k) = false := by simpa using hjk
        simp [List.filter_cons, hk2, List.lookup, hjk2, ih]

theorem lookup_eq_none_of_not_mem_keys {α : Type} (l : List (Nat × α)) (i : Nat)
    (h : i ∉ l.map Prod.fst) : List.lookup i l = none := by
  induction l with
  | nil => rfl
  | cons a l ih =>
    rcases a with ⟨k, v⟩
    simp only [List.map_cons, List.mem_cons] at h
    push_neg at h
    have hik : (i == k) = false := by simpa using h.1
    simp [List.lookup, hik, ih h.2]

theorem lookup_isSome_of_mem_keys {α : Type} (l : List (Nat × α)) (i : Nat)
    (h : i ∈ l.map Prod.fst) : ∃ v, List.lookup i l = some v := by
  induction l with
  | nil => simp at h
  | cons a l ih =>
    rcases a with ⟨k, v⟩
    by_cases hik : i = k
    · subst hik; exact ⟨v, by simp [List.lookup]⟩
    · have h2 : i ∈ l.map Prod.fst := by simpa [hik] using h
      have hik2 : (i == k) = false := by simpa using hik
      simpa [List.lookup, hik2] using ih h2

theorem map_fst_filter_ne {α : Type} (l : List (Nat × α)) (i : Nat) :
    (l.filter (fun p => p.1 != i)).map Prod.fst
      = (l.map Prod.fst).filter (fun k => k != i) := by
  induction l with
  | nil => rfl
  | cons a l ih =>
    by_cases h : (a.1 != i) = true
    · simp [List.filter_cons, h, ih]
    · simp [List.filter_cons, h, ih]

namespace WebViewManager

variable {WebView : Type}

/-! ### Claim theorems -/

/-- C1: each of the four single-id `mark_*` operations returns `true` iff
the effective visibility of the id after the call differs from its value
before the call, and a repeated identical call returns `false`. -/
theorem mark_ops_report_visibility_change (m : WebViewManager WebView) (i : Nat) :
    (((m.mark_webview_shown i).2 = true ↔
        (m.mark_webview_shown i).1.is_effectively_visible i ≠ m.is_effectively_visible i) ∧
      ((m.mark_webview_shown i).1.mark_webview_shown i).2 = false) ∧
    (((m.mark_webview_not_shown i).2 = true ↔
        (m.mark_webview_not_shown i).1.is_effectively_visible i ≠ m.is_effectively_visible i) ∧
      ((m.mark_webview_not_shown i).1.mark_webview_not_shown i).2 = false) ∧
    (((m.mark_webview_invisible i).2 = true ↔
        (m.mark_webview_invisible i).1.is_effectively_visible i ≠ m.is_effectively_visible i) ∧
      ((m.mark_webview_invisible i).1.mark_webview_invisible i).2 = false) ∧
    (((m.mark_webview_not_invisible i).2 = true ↔
        (m.mark_webview_not_invisible i).1.is_effectively_visible i ≠
          m.is_effectively_visible i) ∧
      ((m.mark_webview_not_invisible i).1.mark_webview_not_invisible i).2 = false) := by
  refine ⟨⟨bne_iff_ne, ?_⟩, ⟨bne_iff_ne, ?_⟩, ⟨bne_iff_ne, ?_⟩, ⟨bne_iff_ne, ?_⟩⟩ <;>
    simp [mark_webview_shown, mark_webview_not_shown, mark_webview_invisible,
      mark_webview_not_invisible, is_effectively_visible,
      Finset.insert_idem, Finset.erase_idem]

/-- C2: `mark_all_webviews_not_shown` leaves the shown set empty and
returns exactly the ids that were shown and not invisible at call time. -/
theorem mark_all_webviews_not_shown_spec (m : WebViewManager WebView) :
    (m.mark_all_webviews_not_shown).1.shown_webviews = ∅ ∧
    ∀ i, i ∈ (m.mark_all_webviews_not_shown).2 ↔
      i ∈ m.shown_webviews ∧ i ∉ m.invisible_webviews := by
  refine ⟨rfl, fun i => ?_⟩
  simp [mark_all_webviews_not_shown]

/-- C4: after `remove(id)` the focused flag is `false` when `id` was the
tail of the focus order at call time, and is otherwise unchanged. -/
theorem remove_clears_focus_iff_tail (m : WebViewManager WebView) (i : Nat) :
    (m.remove i).1.is_focused =
      if m.focus_order.getLast? = some i then false else m.is_focused := rfl

/-- C6: `focus(id)` removes every occurrence of `id` from the focus order
and appends `id` at the tail with the focused flag set; focusing twice
consecutively leaves exactly one occurrence of `id`, at the tail. -/
theorem focus_spec (m : WebViewManager WebView) (i : Nat) :
    (m.focus i).focus_order = m.focus_order.filter (fun b => b != i) ++ [i] ∧
    (m.focus i).is_focused = true ∧
    ((m.focus i).focus i).focus_order.count i = 1 ∧
    ((m.focus i).focus i).focus_order.getLast? = some i := by
  refine ⟨rfl, rfl, ?_, ?_⟩
  · show ((m.focus i).focus_order.filter (fun b => b != i) ++ [i]).count i = 1
    rw [List.count_append]
    have h1 : ((m.focus i).focus_order.filter (fun b => b != i)).count i = 0 := by
      rw [List.count_eq_zero]; simp
    simp [h1]
  · show ((m.focus i).focus_order.filter (fun b => b != i) ++ [i]).getLast? = some i
    exact List.getLast?_concat _

/-- C7: `remove(id)` purges `id` from the registry, the focus order and
both marker sets, returns the previously registered payload (absence when
unregistered), and leaves every other registry entry in place. -/
theorem remove_purges_and_returns (m : WebViewManager WebView) (i : Nat) :
    (m.remove i).1.get i = none ∧
    i ∉ (m.remove i).1.focus_order ∧
    i ∉ (m.remove i).1.shown_webviews ∧
    i ∉ (m.remove i).1.invisible_webviews ∧
    (m.remove i).2 = m.get i ∧
    (∀ j, j ≠ i → (m.remove i).1.get j = m.get j) := by
  refine ⟨lookup_filter_key_self _ _, ?_, ?_, ?_, rfl,
    fun j hj => lookup_filter_key_other _ _ _ hj⟩
  · show i ∉ m.focus_order.filter (fun b => b != i)
    simp
  · exact Finset.not_mem_erase _ _
  · exact Finset.not_mem_erase _ _

/-- C8: `unfocus()` clears the focused flag and changes nothing else. -/
theorem unfocus_spec (m : WebViewManager WebView) :
    m.unfocus.is_focused = false ∧
    m.unfocus.focus_order = m.focus_order ∧
    m.unfocus.webviews = m.webviews ∧
    m.unfocus.shown_webviews = m.shown_webviews ∧
    m.unfocus.invisible_webviews = m.invisible_webviews :=
  ⟨rfl, rfl, rfl, rfl, rfl⟩

/-- C10: each single-id `mark_*` operation only inserts or erases the given
id in its own marker set; the registry, the focus order, the focused flag
and the other marker set are untouched. -/
theorem mark_ops_frame (m : WebViewManager WebView) (i : Nat) :
    ((m.mark_webview_shown i).1.shown_webviews = insert i m.shown_webviews ∧
      (m.mark_webview_shown i).1.webviews = m.webviews ∧
      (m.mark_webview_shown i).1.focus_order = m.focus_order ∧
      (m.mark_webview_shown i).1.is_focused = m.is_focused ∧
      (m.mark_webview_shown i).1.invisible_webviews = m.invisible_webviews) ∧
    ((m.mark_webview_not_shown i).1.shown_webviews = m.shown_webviews.erase i ∧
      (m.mark_webview_not_shown i).1.webviews = m.webviews ∧
      (m.mark_webview_not_shown i).1.focus_order = m.focus_order ∧
      (m.mark_webview_not_shown i).1.is_focused = m.is_focused ∧
      (m.mark_webview_not_shown i).1.invisible_webviews = m.invisible_webviews) ∧
    ((m.mark_webview_invisible i).1.invisible_webviews = insert i m.invisible_webviews ∧
      (m.mark_webview_invisible i).1.webviews = m.webviews ∧
      (m.mark_webview_invisible i).1.focus_order = m.focus_order ∧
      (m.mark_webview_invisible i).1.is_focused = m.is_focused ∧
      (m.mark_webview_invisible i).1.shown_webviews = m.shown_webviews) ∧
    ((m.mark_webview_not_invisible i).1.invisible_webviews = m.invisible_webviews.erase i ∧
      (m.mark_webview_not_invisible i).1.webviews = m.webviews ∧
      (m.mark_webview_not_invisible i).1.focus_order = m.focus_order ∧
      (m.mark_webview_not_invisible i).1.is_focused = m.is_focused ∧
      (m.mark_webview_not_invisible i).1.shown_webviews = m.shown_webviews) :=
  ⟨⟨rfl, rfl, rfl, rfl, rfl⟩, ⟨rfl, rfl, rfl, rfl, rfl⟩,
    ⟨rfl, rfl, rfl, rfl, rfl⟩, ⟨rfl, rfl, rfl, rfl, rfl⟩⟩

end WebViewManager

theorem getLast?_some_of_ne_nil {α : Type} {l : List α} (h : l ≠ []) :
    ∃ a, l.getLast? = some a := by
  cases l with
  | nil => simp at h
  | cons x xs => exact ⟨_, List.getLast?_eq_getLast _ h⟩

namespace WebViewManager

variable {WebView : Type}

/-! ### Invariant preservation -/

theorem mem_keys_add (m : WebViewManager WebView) (i : Nat) (w : WebView) (j : Nat) :
    j ∈ (m.add i w).keys ↔ j = i ∨ j ∈ m.keys := by
  by_cases h : j = i <;>
    simp [add, keys, map_fst_filter_ne, List.mem_filter, h]

theorem mem_keys_remove (m : WebViewManager WebView) (i j : Nat) :
    j ∈ (m.remove i).1.keys ↔ j ∈ m.keys ∧ j ≠ i := by
  simp [remove, keys, map_fst_filter_ne, List.mem_filter]

theorem mem_keys_of_contains (m : WebViewManager WebView) (i : Nat)
    (h : m.keys.contains i = true) : i ∈ m.keys := by
  simpa using h

/-- The initial state satisfies the registry invariants. -/
theorem invariant_initial : (initial : WebViewManager WebView).Invariant := by
  refine ⟨?_, ?_, ?_, ?_, ?_⟩ <;> simp [initial, Invariant]

/-- Every operation, run under its precondition, preserves the registry
invariants. -/
theorem invariant_applyOp (m : WebViewManager WebView) (op : Op WebView)
    (hm : m.Invariant) (hop : m.preOk op = true) : (m.applyOp op).Invariant := by
  obtain ⟨h1, h2, h3, h4, h5⟩ := hm
  cases op with
  | add i w =>
    refine ⟨h1, fun x hx => ?_, fun x hx => ?_, fun x hx => ?_, h5⟩ <;>
      exact (mem_keys_add m i w x).mpr (Or.inr (by
        first
        | exact h2 x hx
        | exact h3 x hx
        | exact h4 x hx))
  | remove i =>
    simp only [applyOp]
    refine ⟨h1.filter _, fun x hx => ?_, fun x hx => ?_, fun x hx => ?_, ?_⟩
    · rw [show ((m.remove i).1.focus_order) = m.focus_order.filter (fun b => b != i) from rfl,
        List.mem_filter] at hx
      exact (mem_keys_remove m i x).mpr ⟨h2 x hx.1, by simpa using hx.2⟩
    · rw [show ((m.remove i).1.shown_webviews) = m.shown_webviews.erase i from rfl,
        Finset.mem_erase] at hx
      exact (mem_keys_remove m i x).mpr ⟨h3 x hx.2, hx.1⟩
    · rw [show ((m.remove i).1.invisible_webviews) = m.invisible_webviews.erase i from rfl,
        Finset.mem_erase] at hx
      exact (mem_keys_remove m i x).mpr ⟨h4 x hx.2, hx.1⟩
    · intro hf
      by_cases hc : m.focus_order.getLast? = some i
      · exact absurd hf (by simp [remove, hc])
      · have hf2 : m.is_focused = true := by simpa [remove, hc] using hf
        obtain ⟨x, hx⟩ := getLast?_some_of_ne_nil (h5 hf2)
        have hxi : x ≠ i := fun he => hc (he ▸ hx)
        have hxm : x ∈ m.focus_order := List.mem_of_mem_getLast? (by simp [hx])
        have : x ∈ m.focus_order.filter (fun b => b != i) :=
          List.mem_filter.mpr ⟨hxm, by simpa using hxi⟩
        exact List.ne_nil_of_mem this
  | focus i =>
    simp only [applyOp]
    have hi : i ∈ m.keys := mem_keys_of_contains m i hop
    refine ⟨?_, fun x hx => ?_, h3, h4, ?_⟩
    · rw [show ((m.focus i).focus_order)
          = m.focus_order.filter (fun b => b != i) ++ [i] from rfl, List.nodup_append]
      refine ⟨h1.filter _, by simp, ?_⟩
      intro x hx hx2
      simp at hx2
      subst hx2
      simp at hx
    · rw [show ((m.focus i).focus_order)
          = m.focus_order.filter (fun b => b != i) ++ [i] from rfl, List.mem_append] at hx
      rcases hx with hx | hx
      · exact h2 x (List.mem_filter.mp hx).1
      · simp at hx
        exact hx ▸ hi
    · intro _
      simp [focus]
  | unfocus =>
    refine ⟨h1, h2, h3, h4, fun hf => ?_⟩
    simp [applyOp, unfocus] at hf
  | markShown i =>
    simp only [applyOp]
    have hi : i ∈ m.keys := mem_keys_of_contains m i hop
    refine ⟨h1, h2, fun x hx => ?_, h4, h5⟩
    rw [show ((m.mark_webview_shown i).1.shown_webviews)
        = insert i m.shown_webviews from rfl, Finset.mem_insert] at hx
    rcases hx with hx | hx
    · exact hx ▸ hi
    · exact h3 x hx
  | markNotShown i =>
    exact ⟨h1, h2, fun x hx => h3 x (Finset.mem_of_mem_erase hx), h4, h5⟩
  | markInvisible i =>
    simp only [applyOp]
    have hi : i ∈ m.keys := mem_keys_of_contains m i hop
    refine ⟨h1, h2, h3, fun x hx => ?_, h5⟩
    rw [show ((m.mark_webview_invisible i).1.invisible_webviews)
        = insert i m.invisible_webviews from rfl, Finset.mem_insert] at hx
    rcases hx with hx | hx
    · exact hx ▸ hi
    · exact h4 x hx
  | markNotInvisible i =>
    exact ⟨h1, h2, h3, fun x hx => h4 x (Finset.mem_of_mem_erase hx), h5⟩
  | markAllNotShown =>
    refine ⟨h1, h2, fun x hx => ?_, h4, h5⟩
    have : x ∈ (∅ : Finset Nat) := hx
    simp at this

/-- Running a precondition-honoring sequence preserves the invariants. -/
theorem invariant_runOps (m : WebViewManager WebView) (ops : List (Op WebView))
    (hm : m.Invariant) (hv : m.validFrom ops = true) : (m.runOps ops).Invariant := by
  induction ops generalizing m with
  | nil => exact hm
  | cons op ops ih =>
    rw [validFrom, Bool.and_eq_true] at hv
    exact ih _ (invariant_applyOp m op hm hv.1) hv.2

/-- C3: from the initial state, any sequence of public operations that
honors each operation's precondition yields a state whose focus order is
duplicate-free, whose focus order and marker sets only hold registered
ids, and whose focused flag implies a non-empty focus order with a
registered tail. -/
theorem reachable_states_satisfy_invariants (ops : List (Op WebView))
    (h : (initial : WebViewManager WebView).validFrom ops = true) :
    (runOps initial ops).Invariant ∧
    ((runOps initial ops).is_focused = true →
      ∃ i, (runOps initial ops).focus_order.getLast? = some i ∧
        i ∈ (runOps initial ops).keys) := by
  have hinv := invariant_runOps initial ops invariant_initial h
  refine ⟨hinv, fun hf => ?_⟩
  obtain ⟨h1, h2, h3, h4, h5⟩ := hinv
  obtain ⟨x, hx⟩ := getLast?_some_of_ne_nil (h5 hf)
  exact ⟨x, hx, h2 x (List.mem_of_mem_getLast? (by simp [hx]))⟩

/-- C5: in an invariant-satisfying state, `focused_webview()` is absent iff
the focused flag is clear; with the flag set it returns the tail of the
focus order paired with that id's registered payload. -/
theorem focused_webview_spec (m : WebViewManager WebView) (hm : m.Invariant) :
    (m.focused_webview = none ↔ m.is_focused = false) ∧
    (m.is_focused = true →
      ∃ i w, m.focus_order.getLast? = some i ∧ m.get i = some w ∧
        m.focused_webview = some (i, w)) := by
  obtain ⟨h1, h2, h3, h4, h5⟩ := hm
  have key : m.is_focused = true →
      ∃ i w, m.focus_order.getLast? = some i ∧ m.get i = some w ∧
        m.focused_webview = some (i, w) := by
    intro hf
    obtain ⟨x, hx⟩ := getLast?_some_of_ne_nil (h5 hf)
    have hxk : x ∈ m.keys := h2 x (List.mem_of_mem_getLast? (by simp [hx]))
    obtain ⟨w, hw⟩ := lookup_isSome_of_mem_keys m.webviews x (by simpa [keys] using hxk)
    refine ⟨x, w, hx, hw, ?_⟩
    simp [focused_webview, hf, hx, get, hw]
  refine ⟨⟨fun hn => ?_, fun hf => by simp [focused_webview, hf]⟩, key⟩
  by_contra hff
  have hf2 : m.is_focused = true := by
    cases hfoc : m.is_focused
    · exact absurd hfoc hff
    · rfl
  obtain ⟨i, w, _, _, hw⟩ := key hf2
  rw [hn] at hw
  cases hw

/-- C9: in an invariant-satisfying state, removing an unregistered id
returns absence and leaves the whole state unchanged. -/
theorem remove_unregistered_noop (m : WebViewManager WebView) (i : Nat)
    (hm : m.Invariant) (hi : i ∉ m.keys) :
    (m.remove i).2 = none ∧ (m.remove i).1 = m := by
  obtain ⟨h1, h2, h3, h4, h5⟩ := hm
  have hfo : i ∉ m.focus_order := fun hmem => hi (h2 i hmem)
  have hsh : i ∉ m.shown_webviews := fun hmem => hi (h3 i hmem)
  have hin : i ∉ m.invisible_webviews := fun hmem => hi (h4 i hmem)
  have hlast : ¬ m.focus_order.getLast? = some i := fun hx =>
    hfo (List.mem_of_mem_getLast? (by simp [hx]))
  refine ⟨lookup_eq_none_of_not_mem_keys m.webviews i (by simpa [keys] using hi), ?_⟩
  ext1
  · show m.webviews.filter (fun p => p.1 != i) = m.webviews
    refine List.filter_eq_self.mpr fun p hp => ?_
    have hpk : p.1 ∈ m.keys := List.mem_map_of_mem Prod.fst hp
    have : p.1 ≠ i := fun he => hi (he ▸ hpk)
    simpa using this
  · show m.focus_order.filter (fun b => b != i) = m.focus_order
    refine List.filter_eq_self.mpr fun b hb => ?_
    have : b ≠ i := fun he => hfo (he ▸ hb)
    simpa using this
  · show (if m.focus_order.getLast? = some i then false else m.is_focused) = m.is_focused
    rw [if_neg hlast]
  · exact Finset.erase_eq_of_not_mem hsh
  · exact Finset.erase_eq_of_not_mem hin

end WebViewManager

/-- Witness for C3: a concrete precondition-honoring operation sequence,
with the reachability theorem applied to it. -/
theorem reachable_states_satisfy_invariants_witness :
    (WebViewManager.initial : WebViewManager Nat).validFrom opsW = true ∧
    ((WebViewManager.runOps WebViewManager.initial opsW).Invariant ∧
      ((WebViewManager.runOps WebViewManager.initial opsW).is_focused = true →
        ∃ i, (WebViewManager.runOps WebViewManager.initial opsW).focus_order.getLast?
              = some i ∧
          i ∈ (WebViewManager.runOps WebViewManager.initial opsW).keys)) :=
  ⟨by decide, WebViewManager.reachable_states_satisfy_invariants opsW (by decide)⟩

/-- Witness for C5: the focused-webview query evaluated on a concrete
invariant-satisfying state. -/
theorem focused_webview_spec_witness :
    mgrW.Invariant ∧
    ((mgrW.focused_webview = none ↔ mgrW.is_focused = false) ∧
      (mgrW.is_focused = true →
        ∃ i w, mgrW.focus_order.getLast? = some i ∧ mgrW.get i = some w ∧
          mgrW.focused_webview = some (i, w))) :=
  ⟨by decide, WebViewManager.focused_webview_spec mgrW (by decide)⟩

/-- Witness for C9: removing the unregistered id 5 from a concrete
invariant-satisfying state. -/
theorem remove_unregistered_noop_witness :
    mgrW.Invariant ∧ 5 ∉ mgrW.keys ∧
    ((mgrW.remove 5).2 = none ∧ (mgrW.remove 5).1 = mgrW) :=
  ⟨by decide, by decide,
    WebViewManager.remove_unregistered_noop mgrW 5 (by decide) (by decide)⟩
